import Mathlib

/-!
Gerbil: sparse histogram bins, hashing and vertex layout.

A shallow embedding of `src/gerbil/gui/dist_view/compute.h` (and of the older
`src/gui/viewport.h`) together with the properties its specification states.

Conventions of the embedding

* `multi_img::Value` is `float`.  The embedding computes with exact rationals, so
  every statement about `weight` and `means` is a statement about the arithmetic
  the code performs with rounding left out.
* `size_t` is a natural number reduced modulo `2^w`, `w` being the width in bits.
* A call that the C++ code cannot complete (a violated `assert`, a read past the end
  of a vector, a container length that cannot be represented) yields a `Fault`.
-/

namespace Gerbil

/-! ## Basic types -/

/-- The scalar type `multi_img::Value`. -/
abbrev Value := ℚ

/-- The type `multi_img::Pixel`, a `std::vector<Value>`. -/
abbrev Pixel := List Value

/-- The Qt colour type; the histogram code only stores and copies colours.
`none` is the invalid colour produced by `QColor()`. -/
abbrev QColor := Option Nat

/-- Ways in which a call fails to complete. -/
inductive Fault where
  /-- an `assert` does not hold -/
  | assertion
  /-- an iterator is moved past the end of its container -/
  | outOfRange
  /-- a container is requested with a length that is not a valid `size_type` -/
  | lengthError
deriving DecidableEq, Repr

/-- The call `std::transform(xs.begin(), xs.end(), ys.begin(), xs.begin(), op)`:
it walks over all of `xs` and reads `ys` at the same positions, so `ys` must be at
least as long as `xs`. -/
def transform (op : Value → Value → Value) (xs ys : List Value) :
    Except Fault (List Value) :=
  if xs.length ≤ ys.length then .ok (List.zipWith op xs ys) else .error .outOfRange

/-! ## `struct Bin` of `compute.h` -/

/-- An entry of the sparse histogram. -/
structure Bin where
  weight : Value
  means : List Value
  rgb : QColor
deriving DecidableEq, Repr

namespace Bin

/-- The constructor `Bin() : weight(0.f) {}`. -/
def new : Bin := { weight := 0, means := [], rgb := none }

/-- The constructor `Bin(const multi_img::Pixel& initial_means)`. -/
def newFrom (initial_means : Pixel) : Bin :=
  { weight := 1, means := initial_means, rgb := none }

/-- The member `Bin::add`. -/
def add (b : Bin) (p : Pixel) : Except Fault Bin :=
  let weight := b.weight + 1
  let means := if b.means.isEmpty then List.replicate p.length 0 else b.means
  match transform (· + ·) means p with
  | .ok m => .ok { b with weight := weight, means := m }
  | .error e => .error e

/-- The member `Bin::sub`. -/
def sub (b : Bin) (p : Pixel) : Except Fault Bin :=
  let weight := b.weight - 1
  if b.means.isEmpty then .error .assertion
  else
    match transform (· - ·) b.means p with
    | .ok m => .ok { b with weight := weight, means := m }
    | .error e => .error e

/-- A series of `add` calls, one per pixel, in order. -/
def addAll : Bin → List Pixel → Except Fault Bin
  | b, [] => .ok b
  | b, p :: ps =>
    match b.add p with
    | .ok b1 => addAll b1 ps
    | .error e => .error e

end Bin

/-- A call of one of the two mutating members of `Bin`. -/
inductive BinOp where
  | add (p : Pixel)
  | sub (p : Pixel)
deriving DecidableEq, Repr

namespace BinOp

/-- The pixel argument of the call. -/
def pixel : BinOp → Pixel
  | add p => p
  | sub p => p

/-- Whether the call is an `add`. -/
def isAdd : BinOp → Bool
  | add _ => true
  | sub _ => false

/-- Perform the call on a bin. -/
def apply (b : Bin) : BinOp → Except Fault Bin
  | add p => b.add p
  | sub p => b.sub p

/-- Perform a sequence of calls, stopping at the first fault. -/
def run : Bin → List BinOp → Except Fault Bin
  | b, [] => .ok b
  | b, op :: ops =>
    match apply b op with
    | .ok b1 => run b1 ops
    | .error e => .error e

end BinOp

/-- The sum of all pixels in dimension `d`. -/
def dimSum (ps : List Pixel) (d : Nat) : Value :=
  (ps.map (fun p => p.getD d 0)).sum

/-- The component-wise sum of pixels of length `D`. -/
def pixelSum (D : Nat) (ps : List Pixel) : List Value :=
  (List.range D).map (dimSum ps)

/-! ## `struct Bin` and `struct BinSet` of the older `viewport.h` -/

/-- The `Bin` of `viewport.h`: it has no `sub`. -/
structure ViewportBin where
  weight : Value
  means : List Value
  rgb : QColor
deriving DecidableEq, Repr

namespace ViewportBin

/-- The constructor `Bin() {}` of `viewport.h`. It does not initialise `weight`;
`w0` is the value the member happens to hold. -/
def new (w0 : Value) : ViewportBin := { weight := w0, means := [], rgb := none }

/-- The constructor `Bin(const multi_img::Pixel& initial_means)` of `viewport.h`. -/
def newFrom (initial_means : Pixel) : ViewportBin :=
  { weight := 1, means := initial_means, rgb := none }

/-- The member `Bin::add` of `viewport.h`: there is no `resize`. -/
def add (b : ViewportBin) (p : Pixel) : Except Fault ViewportBin :=
  let weight := b.weight + 1
  match transform (· + ·) b.means p with
  | .ok m => .ok { b with weight := weight, means := m }
  | .error e => .error e

/-- A series of `add` calls, one per pixel, in order. -/
def addAll : ViewportBin → List Pixel → Except Fault ViewportBin
  | b, [] => .ok b
  | b, p :: ps =>
    match b.add p with
    | .ok b1 => addAll b1 ps
    | .error e => .error e

end ViewportBin

/-- The `BinSet` of `viewport.h`; `bins` is a `QHash<QByteArray, Bin>`. -/
structure ViewportBinSet where
  label : QColor
  bins : List (List (Fin 256) × ViewportBin)
  totalweight : Value
  boundary : List (Int × Int)
deriving DecidableEq, Repr

/-- The constructor `BinSet(const QColor &c, int size)` of `viewport.h`. A negative
`size` does not convert to a length a `std::vector` can have. -/
def ViewportBinSet.new (c : QColor) (size : Int) : Except Fault ViewportBinSet :=
  if size < 0 then .error .lengthError
  else .ok { label := c, bins := [], totalweight := 0,
             boundary := List.replicate size.toNat (255, 0) }

/-! ## `struct BinSet` of `compute.h` -/

/-- The type `BinSet::HashKey`: one `unsigned char` per band. -/
abbrev HashKey := List (Fin 256)

/-- The type `BinSet::HashMap`, a `tbb::concurrent_hash_map<HashKey, Bin>`, as the
list of its entries. -/
abbrev HashMap := List (HashKey × Bin)

namespace HashMap

/-- The bin stored under a key, if there is one. -/
def get (k : HashKey) : HashMap → Option Bin
  | [] => none
  | (k1, b1) :: rest => if k1 = k then some b1 else get k rest

/-- Store a bin under a key, replacing the bin that is there or adding an entry. -/
def set (k : HashKey) (b : Bin) : HashMap → HashMap
  | [] => [(k, b)]
  | (k1, b1) :: rest => if k1 = k then (k, b) :: rest else (k1, b1) :: set k b rest

end HashMap

/-- A label histogram. `totalweight` is a `tbb::atomic<int>`. -/
structure BinSet where
  label : QColor
  bins : HashMap
  totalweight : Int
  boundary : List (Int × Int)
deriving DecidableEq, Repr

/-- The constructor `BinSet(const QColor &c, int size)` of `compute.h`. A negative
`size` does not convert to a length a `std::vector` can have. -/
def BinSet.new (c : QColor) (size : Int) : Except Fault BinSet :=
  if size < 0 then .error .lengthError
  else .ok { label := c, bins := [], totalweight := 0,
             boundary := List.replicate size.toNat (255, 0) }

/-! ## Vector discretizer and histogram update -/

/-- The function `clamp(v, lo, hi)`. -/
def clamp (v lo hi : Int) : Int :=
  if v < lo then lo else if hi < v then hi else v

/-- Modelled from the spec: one component of the Vector Discretizer of section 4.1,
whose code is in no source file at hand. The component is
`clamp(round((value - minval) / binsize), 0, nbins-1)`. `round` takes a tie upwards;
below 0 the clamp hides the difference to rounding a tie away from zero. -/
def discretizeValue (minval binsize : Value) (nbins : Int) (value : Value) : Int :=
  clamp (round ((value - minval) / binsize)) 0 (nbins - 1)

/-- The conversion of an `int` to `unsigned char`. -/
def toByte (v : Int) : Fin 256 :=
  Fin.ofNat (v % 256).toNat

/-- Modelled from the spec: the Vector Discretizer of section 4.1, whose code is in
no source file at hand. It maps a pixel vector to a key with one byte per dimension. -/
def discretize (minval binsize : Value) (nbins : Int) (p : Pixel) : HashKey :=
  p.map (fun value => toByte (discretizeValue minval binsize nbins value))

/-- The parameters of the discretizer, as the Viewport Context holds them. -/
structure Discretization where
  minval : Value
  binsize : Value
  nbins : Int
deriving DecidableEq, Repr

/-- Modelled from the spec: the `add` operation of section 4.2 on a label histogram,
whose code is in no source file at hand. It looks up or inserts the bin for the
pixel's key, calls `Bin::add` on it and increments `totalweight`. -/
def BinSet.addPixel (cfg : Discretization) (s : BinSet) (p : Pixel) :
    Except Fault BinSet :=
  let key := discretize cfg.minval cfg.binsize cfg.nbins p
  let bin := (HashMap.get key s.bins).getD Bin.new
  match bin.add p with
  | .ok b => .ok { s with bins := HashMap.set key b s.bins,
                          totalweight := s.totalweight + 1 }
  | .error e => .error e

/-- Modelled from the spec: the `sub` operation of section 4.2 on a label histogram,
whose code is in no source file at hand. It is the symmetric decrement and fails on a
bin that never received an add. -/
def BinSet.subPixel (cfg : Discretization) (s : BinSet) (p : Pixel) :
    Except Fault BinSet :=
  let key := discretize cfg.minval cfg.binsize cfg.nbins p
  let bin := (HashMap.get key s.bins).getD Bin.new
  match bin.sub p with
  | .ok b => .ok { s with bins := HashMap.set key b s.bins,
                          totalweight := s.totalweight - 1 }
  | .error e => .error e

/-- An event of the labeling subsystem: a pixel is added to or removed from a label. -/
inductive PixelOp where
  | add (p : Pixel)
  | remove (p : Pixel)
deriving DecidableEq, Repr

/-- Perform one event on a label histogram. -/
def PixelOp.apply (cfg : Discretization) (s : BinSet) : PixelOp → Except Fault BinSet
  | .add p => s.addPixel cfg p
  | .remove p => s.subPixel cfg p

/-- Perform a sequence of events, stopping at the first fault. -/
def PixelOp.run (cfg : Discretization) : BinSet → List PixelOp → Except Fault BinSet
  | s, [] => .ok s
  | s, op :: ops =>
    match PixelOp.apply cfg s op with
    | .ok s1 => PixelOp.run cfg s1 ops
    | .error e => .error e

/-- The function `tbb_size_t_select`, for a `size_t` of `w` bits and an `unsigned`
of 32 bits: `sizeof(size_t) == sizeof(u)` holds exactly when `w = 32`. -/
def tbb_size_t_select (w : Nat) (u ull : Nat) : Nat :=
  if w = 32 then u % 2 ^ w else ull % 2 ^ w

/-- The constant `tbb_hash_multiplier`. -/
def tbb_hash_multiplier (w : Nat) : Nat :=
  tbb_size_t_select w 2654435769 11400714819323198485

/-- The loop of `tbb::tbb_hasher`, entered with index `i` and hash `h`; the first
argument bounds the number of iterations. -/
def tbb_hasher_loop (w : Nat) (a : HashKey) : Nat → Nat → Nat → Nat
  | 0, _, h => h
  | fuel + 1, i, h =>
    if i < a.length then
      tbb_hasher_loop w a fuel (i + 1)
        (((a.getD i 0).val % 2 ^ w) ^^^ (h * tbb_hash_multiplier w % 2 ^ w))
    else h

/-- The function `tbb::tbb_hasher` on a key; the loop runs `a.size()` times. -/
def tbb_hasher (w : Nat) (a : HashKey) : Nat :=
  tbb_hasher_loop w a a.length 0 0

/-- The hash as the specification words it: the left fold over the bytes, from 0, of
`h ↦ a[i] XOR (h * tbb_hash_multiplier)`, the product taken modulo `2^w`. -/
def hashFold (w : Nat) (a : HashKey) : Nat :=
  a.foldl (fun h x => x.val ^^^ (h * tbb_hash_multiplier w % 2 ^ w)) 0

/-! ## Range reducer `Compute::PreprocessBins` -/

/-- The constant `INT_MAX` of a 32-bit `int`. -/
def INT_MAX : Int := 2147483647

/-- The constant `INT_MIN` of a 32-bit `int`. -/
def INT_MIN : Int := -2147483648

/-- The state a `PreprocessBins` body owns. Its members `meta` and `index` are
references to data outside the body and are not part of it. -/
structure PreprocessBins where
  label : Int
  dimensionality : Nat
  maxval : Value
  ranges : List (Int × Int)
deriving DecidableEq, Repr

namespace PreprocessBins

/-- The constructor `PreprocessBins(label, dimensionality, maxval, meta, index)`. -/
def new (label : Int) (dimensionality : Nat) (maxval : Value) : PreprocessBins :=
  { label := label, dimensionality := dimensionality, maxval := maxval,
    ranges := List.replicate dimensionality (INT_MAX, INT_MIN) }

/-- The splitting constructor `PreprocessBins(PreprocessBins &toSplit, tbb::split)`. -/
def split (toSplit : PreprocessBins) : PreprocessBins :=
  { label := toSplit.label, dimensionality := toSplit.dimensionality,
    maxval := toSplit.maxval,
    ranges := List.replicate toSplit.dimensionality (INT_MAX, INT_MIN) }

/-- The member `GetRanges`. -/
def GetRanges (body : PreprocessBins) : List (Int × Int) := body.ranges

/-- Modelled from the spec: step 3 of section 4.3 in one dimension, whose code is in
no source file at hand: the running range takes in the coordinate `c`. -/
def takeIn (r : Int × Int) (c : Fin 256) : Int × Int :=
  (min r.1 (c.val : Int), max r.2 (c.val : Int))

/-- Modelled from the spec: step 3 of section 4.3 for one bin, whose code is in no
source file at hand. In every dimension the running range takes in the coordinate of
the bin's key. -/
def visit (body : PreprocessBins) (key : HashKey) : PreprocessBins :=
  { body with ranges := List.zipWith takeIn body.ranges key }

/-- Modelled from the spec: `operator()` of section 4.3 restricted to the occupancy
ranges, whose code is in no source file at hand. The bins of the sub-range are
visited one after the other. -/
def call (body : PreprocessBins) (r : HashMap) : PreprocessBins :=
  r.foldl (fun acc e => acc.visit e.1) body

/-- Modelled from the spec: the join of section 4.3, whose code is in no source file
at hand: the component-wise min of the minimums and max of the maximums. -/
def joinRanges (local1 remote : List (Int × Int)) : List (Int × Int) :=
  List.zipWith (fun a b => (min a.1 b.1, max a.2 b.2)) local1 remote

/-- Modelled from the spec: the member `join`, whose code is in no source file at
hand. -/
def join (body toJoin : PreprocessBins) : PreprocessBins :=
  { body with ranges := joinRanges body.ranges toJoin.ranges }

/-- Every bound of every range is a value of a 32-bit `int`. -/
def intRanges (r : List (Int × Int)) : Prop :=
  ∀ e ∈ r, (INT_MIN ≤ e.1 ∧ e.1 ≤ INT_MAX) ∧ (INT_MIN ≤ e.2 ∧ e.2 ≤ INT_MAX)

instance (r : List (Int × Int)) : Decidable (intRanges r) :=
  inferInstanceAs (Decidable (∀ e ∈ r, _))

end PreprocessBins

/-- A way to divide the entries of a bin map among bodies: a body either works
through a run of entries itself, or splits off a second body and joins with it. -/
inductive WorkSplit where
  | leaf (entries : HashMap)
  | node (left right : WorkSplit)

namespace WorkSplit

/-- All entries that are handed out, from left to right. -/
def entries : WorkSplit → HashMap
  | leaf es => es
  | node l r => l.entries ++ r.entries

/-- The parallel reduction: `body` is a freshly constructed or split body. -/
def reduce (body : PreprocessBins) : WorkSplit → PreprocessBins
  | leaf es => body.call es
  | node l r => (reduce body l).join (reduce body.split r)

end WorkSplit

/-! ## Vertex generator `Compute::GenerateVertices` -/

/-- A vertex of the buffer: two `GLfloat` coordinates. -/
structure Vertex where
  x : Value
  y : Value
deriving DecidableEq, Repr

namespace GenerateVertices

/-- Modelled from the spec: the offset, counted in vertices, of step 3 of section
4.4, whose code is in no source file at hand. The `D` vertices of an entry are
consecutive, as line-strip drawing per bin needs, and the entries follow each other in
the order of the Flat Bin Index. -/
def offset (D i d : Nat) : Nat := i * D + d

/-- Modelled from the spec: the writes for entry `i` of the Flat Bin Index, whose
code is in no source file at hand: one vertex per dimension. `ypos i d` is the
vertical position that step 2 computes. -/
def entryWrites (D : Nat) (ypos : Nat → Nat → Value) (i : Nat) : List (Nat × Vertex) :=
  (List.range D).map (fun d => (offset D i d, { x := (d : Value), y := ypos i d }))

/-- Modelled from the spec: `operator()` on the range of entries from `first` up to,
not including, `last`, whose code is in no source file at hand. -/
def call (D : Nat) (ypos : Nat → Nat → Value) (first last : Nat) : List (Nat × Vertex) :=
  (List.range' first (last - first)).flatMap (entryWrites D ypos)

end GenerateVertices

/-! ## `struct ViewportCtx` -/

/-- The enumeration `representation`. -/
inductive representation where
  | IMG
  | GRAD
  | IMGPCA
  | GRADPCA
  | REPSIZE
deriving DecidableEq, Repr

/-- The viewport context. `wait` and `reset` are `tbb::atomic<int>`; the type
`multi_img::BandDesc` is declared in a header that is not at hand and is a parameter;
`QString` is a string. -/
structure ViewportCtx (BandDesc : Type) where
  wait : Int
  reset : Int
  dimensionality : Nat
  dimensionalityValid : Bool
  type : representation
  meta : List BandDesc
  metaValid : Bool
  labels : List String
  labelsValid : Bool
  ignoreLabels : Bool
  nbins : Int
  binsize : Value
  binsizeValid : Bool
  minval : Value
  minvalValid : Bool
  maxval : Value
  maxvalValid : Bool
deriving DecidableEq, Repr

/-- The member `ViewportCtx::operator=`: `self` is the object assigned to, the result
is its state after the seventeen member assignments, which is what `*this` refers
to. `other` is a reference to a constant object. -/
def ViewportCtx.assign {BandDesc : Type} (self other : ViewportCtx BandDesc) :
    ViewportCtx BandDesc :=
  let s := { self with wait := other.wait }
  let s := { s with reset := other.reset }
  let s := { s with dimensionality := other.dimensionality }
  let s := { s with dimensionalityValid := other.dimensionalityValid }
  let s := { s with type := other.type }
  let s := { s with meta := other.meta }
  let s := { s with metaValid := other.metaValid }
  let s := { s with labels := other.labels }
  let s := { s with labelsValid := other.labelsValid }
  let s := { s with ignoreLabels := other.ignoreLabels }
  let s := { s with nbins := other.nbins }
  let s := { s with binsize := other.binsize }
  let s := { s with binsizeValid := other.binsizeValid }
  let s := { s with minval := other.minval }
  let s := { s with minvalValid := other.minvalValid }
  let s := { s with maxval := other.maxval }
  let s := { s with maxvalValid := other.maxvalValid }
  s

/-! ## `estimate_startup_memory` of `main.cpp` -/

theorem zipWith_add_zero (p : List Value) :
    List.zipWith (· + ·) (List.replicate p.length (0 : Value)) p = p := by
  induction p with
  | nil => simp
  | cons y ys ih => simp [List.replicate_succ, ih]

theorem Bin.add_nonempty (b : Bin) (p : Pixel) (hne : b.means ≠ [])
    (hp : b.means.length ≤ p.length) :
    b.add p = .ok { b with weight := b.weight + 1,
                           means := List.zipWith (· + ·) b.means p } := by
  have h1 : b.means.isEmpty = false := by
    cases hm : b.means with
    | nil => exact absurd hm hne
    | cons x xs => rfl
  simp [Bin.add, transform, h1, hp]

theorem Bin.add_empty (b : Bin) (p : Pixel) (he : b.means = []) :
    b.add p = .ok { b with weight := b.weight + 1, means := p } := by
  simp [Bin.add, transform, he, zipWith_add_zero]

theorem Bin.sub_nonempty (b : Bin) (p : Pixel) (hne : b.means ≠ [])
    (hp : b.means.length ≤ p.length) :
    b.sub p = .ok { b with weight := b.weight - 1,
                           means := List.zipWith (· - ·) b.means p } := by
  have h1 : b.means.isEmpty = false := by
    cases hm : b.means with
    | nil => exact absurd hm hne
    | cons x xs => rfl
  simp [Bin.sub, transform, h1, hp]

theorem Bin.sub_empty (b : Bin) (p : Pixel) (he : b.means = []) :
    b.sub p = .error .assertion := by
  simp [Bin.sub, he]

theorem pixelSum_length (D : Nat) (ps : List Pixel) : (pixelSum D ps).length = D := by
  simp [pixelSum]

/-- From a bin whose `means` has length `D` or, before any add, length 0, a series of
`add` and `sub` calls with pixels of length `D` leaves `means` with length `D` once an
add has happened and with length 0 before. -/
theorem BinOp.run_means_length (D : Nat) (ops : List BinOp)
    (hD : ∀ op ∈ ops, op.pixel.length = D) (b b1 : Bin) (added : Bool)
    (hb : b.means.length = if added then D else 0)
    (hrun : BinOp.run b ops = .ok b1) :
    b1.means.length = if (added || ops.any BinOp.isAdd) then D else 0 := by
  induction ops generalizing b added with
  | nil =>
    simp only [BinOp.run, Except.ok.injEq] at hrun
    subst hrun
    simpa using hb
  | cons op ops ih =>
    have hop : op.pixel.length = D := hD op (List.mem_cons_self _ _)
    have hops : ∀ o ∈ ops, o.pixel.length = D := fun o ho => hD o (List.mem_cons_of_mem _ ho)
    cases op with
    | add p =>
      simp only [BinOp.pixel] at hop
      by_cases he : b.means = []
      · simp only [BinOp.run, BinOp.apply, Bin.add_empty b p he] at hrun
        have := ih hops _ true (by simpa using hop) hrun
        simpa [BinOp.isAdd] using this
      · have hlen : b.means.length = D := by
          cases added with
          | true => simpa using hb
          | false =>
            simp only [Bool.false_eq_true, if_false] at hb
            exact absurd (List.length_eq_zero.mp hb) he
        simp only [BinOp.run, BinOp.apply,
          Bin.add_nonempty b p he (by omega)] at hrun
        have := ih hops _ true (by simp [hlen, hop]) hrun
        simpa [BinOp.isAdd] using this
    | sub p =>
      simp only [BinOp.pixel] at hop
      by_cases he : b.means = []
      · simp [BinOp.run, BinOp.apply, Bin.sub_empty b p he] at hrun
      · have hlen : b.means.length = D := by
          cases added with
          | true => simpa using hb
          | false =>
            simp only [Bool.false_eq_true, if_false] at hb
            exact absurd (List.length_eq_zero.mp hb) he
        simp only [BinOp.run, BinOp.apply,
          Bin.sub_nonempty b p he (by omega)] at hrun
        have := ih hops _ added (by
          cases added with
          | true => simp [hlen, hop]
          | false =>
            simp only [Bool.false_eq_true, if_false] at hb
            exact absurd (List.length_eq_zero.mp hb) he) hrun
        simpa [BinOp.isAdd] using this

/-- Once `means` is non-empty, calls with pixels of its length never fail. -/
theorem BinOp.run_succeeds (D : Nat) (hD0 : 0 < D) (ops : List BinOp)
    (hD : ∀ op ∈ ops, op.pixel.length = D) (b : Bin) (hb : b.means.length = D) :
    ∃ b1, BinOp.run b ops = .ok b1 := by
  induction ops generalizing b with
  | nil => exact ⟨b, rfl⟩
  | cons op ops ih =>
    have hop : op.pixel.length = D := hD op (List.mem_cons_self _ _)
    have hops : ∀ o ∈ ops, o.pixel.length = D := fun o ho => hD o (List.mem_cons_of_mem _ ho)
    have hne : b.means ≠ [] := by
      intro h
      rw [h] at hb
      simp at hb
      omega
    cases op with
    | add p =>
      simp only [BinOp.pixel] at hop
      simp only [BinOp.run, BinOp.apply, Bin.add_nonempty b p hne (by omega)]
      exact ih hops _ (by simp [hb, hop])
    | sub p =>
      simp only [BinOp.pixel] at hop
      simp only [BinOp.run, BinOp.apply, Bin.sub_nonempty b p hne (by omega)]
      exact ih hops _ (by simp [hb, hop])

/-- The `add` of `viewport.h` never changes the length of `means`: a bin built by
`Bin()` keeps an empty `means`, a bin built from a pixel keeps the pixel's length. -/
theorem ViewportBin.addAll_means_length (ps : List Pixel) (b b1 : ViewportBin)
    (hrun : ViewportBin.addAll b ps = .ok b1) (hps : ∀ p ∈ ps, b.means.length ≤ p.length) :
    b1.means.length = b.means.length := by
  induction ps generalizing b with
  | nil =>
    simp only [ViewportBin.addAll, Except.ok.injEq] at hrun
    rw [← hrun]
  | cons p ps ih =>
    have hp : b.means.length ≤ p.length := hps p (List.mem_cons_self _ _)
    have hadd : b.add p = .ok { b with weight := b.weight + 1,
                                       means := List.zipWith (· + ·) b.means p } := by
      simp [ViewportBin.add, transform, hp]
    simp only [ViewportBin.addAll, hadd] at hrun
    have hlen : (List.zipWith (· + ·) b.means p).length = b.means.length := by
      simp [hp]
    have := ih _ hrun (by
      intro q hq
      simp only [hlen]
      exact hps q (List.mem_cons_of_mem _ hq))
    rw [this, hlen]

/-- C3: a bin reached from a default-constructed bin by `add` and `sub` calls with
pixels of length `D` has a `means` of length 0 or `D`: the length is 0 as long as no
add has happened, it is `D` from the first add on, and no later `add` or `sub`
changes it. -/
theorem C3_means_size_zero_or_D (D : Nat) (ops : List BinOp)
    (hD : ∀ op ∈ ops, op.pixel.length = D) (b : Bin)
    (hrun : BinOp.run Bin.new ops = .ok b) :
    (b.means.length = 0 ∨ b.means.length = D) ∧
    (b.means.length = if ops.any BinOp.isAdd then D else 0) ∧
    (∀ op b1, op.pixel.length = D → ops.any BinOp.isAdd = true →
      BinOp.apply b op = .ok b1 → b1.means.length = b.means.length) := by
  have hmain : b.means.length = if ops.any BinOp.isAdd then D else 0 := by
    have := BinOp.run_means_length D ops hD Bin.new b false (by simp [Bin.new]) hrun
    simpa using this
  refine ⟨?_, hmain, ?_⟩
  · by_cases h : ops.any BinOp.isAdd = true
    · right
      simpa [h] using hmain
    · left
      simpa [h] using hmain
  · intro op b1 hop hany happ
    have hbD : b.means.length = D := by simpa [hany] using hmain
    have hrun1 : BinOp.run b [op] = .ok b1 := by
      simp [BinOp.run, happ]
    have := BinOp.run_means_length D [op] (by simpa using hop) b b1 true
      (by simpa using hbD) hrun1
    simp only [Bool.true_or, if_true] at this
    rw [this, hbD]

/-- C3 at the calls `add (1,2)`, `sub (1,2)`, `add (3,4)` with `D = 2`. -/
theorem C3_means_size_zero_or_D_witness :
    ∃ b, BinOp.run Bin.new [BinOp.add [1, 2], BinOp.sub [1, 2], BinOp.add [3, 4]] = .ok b ∧
      (b.means.length = 0 ∨ b.means.length = 2) := by
  have hrun : BinOp.run Bin.new [BinOp.add [1, 2], BinOp.sub [1, 2], BinOp.add [3, 4]]
      = .ok { weight := 1, means := [3, 4], rgb := none } := by
    simp [BinOp.run, BinOp.apply, Bin.add, Bin.sub, Bin.new, transform]
  exact ⟨_, hrun, (C3_means_size_zero_or_D 2
    [BinOp.add [1, 2], BinOp.sub [1, 2], BinOp.add [3, 4]]
    (by simp [BinOp.pixel]) _ hrun).1⟩

/-- C4: the assertion of `sub` fails exactly when `means` is empty, which for a bin
reached from a default-constructed one with pixels of a length `D > 0` is exactly when
it has received no add; on a bin with a non-empty `means` (and a pixel that has a
component for each entry of `means`) the call succeeds, takes 1 off `weight` and
subtracts the pixel component-wise. -/
theorem C4_sub_fails_iff_means_empty (b : Bin) (p : Pixel) :
    (b.sub p = .error .assertion ↔ b.means = []) ∧
    (b.means ≠ [] → b.means.length ≤ p.length →
      b.sub p = .ok { b with weight := b.weight - 1,
                             means := List.zipWith (· - ·) b.means p }) ∧
    (∀ (D : Nat) (ops : List BinOp), 0 < D → (∀ op ∈ ops, op.pixel.length = D) →
      BinOp.run Bin.new ops = .ok b → (b.means = [] ↔ ops.any BinOp.isAdd = false)) := by
  refine ⟨⟨?_, Bin.sub_empty b p⟩, Bin.sub_nonempty b p, ?_⟩
  · intro hfail
    by_contra hne
    have h1 : b.means.isEmpty = false := by
      cases hm : b.means with
      | nil => exact absurd hm hne
      | cons x xs => rfl
    by_cases hp : b.means.length ≤ p.length
    · rw [Bin.sub_nonempty b p hne hp] at hfail
      simp at hfail
    · simp [Bin.sub, h1, transform, hp] at hfail
  · intro D ops hD0 hD hrun
    have hlen := BinOp.run_means_length D ops hD Bin.new b false (by simp [Bin.new]) hrun
    simp only [Bool.false_or] at hlen
    rw [← List.length_eq_zero, hlen]
    cases ops.any BinOp.isAdd with
    | true => simp; omega
    | false => simp

/-- C4 at the bin with weight 2 and means `(5, 7)` and the pixel `(1, 2)`, and at
the bin that `Bin()` constructs. -/
theorem C4_sub_fails_iff_means_empty_witness :
    Bin.sub { weight := 2, means := [5, 7], rgb := none } [1, 2]
      = .ok { weight := 2 - 1, means := List.zipWith (· - ·) [5, 7] [1, 2], rgb := none } ∧
    Bin.sub Bin.new [1, 2] = .error .assertion :=
  ⟨(C4_sub_fails_iff_means_empty { weight := 2, means := [5, 7], rgb := none } [1, 2]).2.1
      (by simp) (by simp),
   (C4_sub_fails_iff_means_empty Bin.new [1, 2]).1.2 rfl⟩

/-! ## Claims on `BinSet` -/

/-- C5: for every colour `c` and every size `D ≥ 0` the constructor `BinSet(c, D)`, in
`compute.h` and in `viewport.h` alike, gives a `boundary` of length `D` with every
entry `(255, 0)`, the label `c`, `totalweight` 0 and an empty bin map. -/
theorem C5_BinSet_constructor (c : QColor) (D : Int) (hD : 0 ≤ D) :
    (∃ s, BinSet.new c D = .ok s ∧ (s.boundary.length : Int) = D ∧
      (∀ e ∈ s.boundary, e = (255, 0)) ∧ s.label = c ∧ s.totalweight = 0 ∧ s.bins = []) ∧
    (∃ s, ViewportBinSet.new c D = .ok s ∧ (s.boundary.length : Int) = D ∧
      (∀ e ∈ s.boundary, e = (255, 0)) ∧ s.label = c ∧ s.totalweight = 0 ∧ s.bins = []) := by
  have hlt : ¬ D < 0 := not_lt.mpr hD
  constructor
  · refine ⟨{ label := c, bins := [], totalweight := 0,
              boundary := List.replicate D.toNat (255, 0) }, ?_, ?_, ?_, rfl, rfl, rfl⟩
    · simp only [BinSet.new, hlt, if_false]
    · simp [Int.toNat_of_nonneg hD]
    · intro e he
      exact List.eq_of_mem_replicate he
  · refine ⟨{ label := c, bins := [], totalweight := 0,
              boundary := List.replicate D.toNat (255, 0) }, ?_, ?_, ?_, rfl, rfl, rfl⟩
    · simp only [ViewportBinSet.new, hlt, if_false]
    · simp [Int.toNat_of_nonneg hD]
    · intro e he
      exact List.eq_of_mem_replicate he

/-- C5 at the colour 7 and the size 3. -/
theorem C5_BinSet_constructor_witness :
    BinSet.new (some 7) 3
      = .ok { label := some 7, bins := [], totalweight := 0,
              boundary := [(255, 0), (255, 0), (255, 0)] } := by
  obtain ⟨s, hs, _, _, _, _, _⟩ := (C5_BinSet_constructor (some 7) 3 (by decide)).1
  rw [hs]
  simp only [BinSet.new] at hs
  rw [← Except.ok.inj hs]
  rfl

/-- Under rounding to the nearest integer the pixel `(0, 0, 0.9)` has the key
`(0, 0, 1)`. -/
theorem discretize_nine_tenths : discretize 0 1 4 [0, 0, 9/10] = [0, 0, 1] := by
  simp only [discretize, discretizeValue, clamp, toByte, List.map, round_eq]
  norm_num
  decide

theorem clamp_bounds (v hi : Int) (h : 0 ≤ hi) : 0 ≤ clamp v 0 hi ∧ clamp v 0 hi ≤ hi := by
  unfold clamp
  split
  · exact ⟨le_refl _, h⟩
  · split
    · exact ⟨h, le_refl _⟩
    · constructor <;> omega

theorem toByte_val (v : Int) (h0 : 0 ≤ v) (h1 : v ≤ 255) : ((toByte v).val : Int) = v := by
  unfold toByte
  have hv : v % 256 = v := Int.emod_eq_of_lt h0 (by omega)
  rw [hv]
  have hlt : v.toNat < 256 := by omega
  simp only [Fin.ofNat, Nat.mod_eq_of_lt hlt]
  exact Int.toNat_of_nonneg h0

/-- C7: for every pixel vector `v`, every `minval`, every `binsize > 0` and every
`nbins` from 1 to 256, the key of the discretizer has the length of `v`, and its
component `d` equals `clamp(round((v[d] - minval) / binsize), 0, nbins-1)`: the byte
holds that value unchanged, and the value lies in `0..nbins-1`. The bound on
`binsize` keeps the quotient defined; the bounds on `nbins` make the value fit. -/
theorem C7_discretize_key (minval binsize : Value) (nbins : Int) (_hb : 0 < binsize)
    (h1 : 1 ≤ nbins) (h2 : nbins ≤ 256) (v : Pixel) :
    (discretize minval binsize nbins v).length = v.length ∧
    ∀ d, d < v.length →
      (((discretize minval binsize nbins v).getD d 0).val : Int)
          = clamp (round ((v.getD d 0 - minval) / binsize)) 0 (nbins - 1) ∧
      0 ≤ (((discretize minval binsize nbins v).getD d 0).val : Int) ∧
      (((discretize minval binsize nbins v).getD d 0).val : Int) ≤ nbins - 1 := by
  refine ⟨by simp [discretize], ?_⟩
  intro d hd
  have hbnd := clamp_bounds (round ((v.getD d 0 - minval) / binsize)) (nbins - 1) (by omega)
  have hget : (discretize minval binsize nbins v).getD d 0
      = toByte (discretizeValue minval binsize nbins (v.getD d 0)) := by
    simp [discretize, List.getD_eq_getElem?_getD, List.getElem?_map,
      List.getElem?_eq_getElem hd]
  have hval := toByte_val (clamp (round ((v.getD d 0 - minval) / binsize)) 0 (nbins - 1))
    hbnd.1 (by omega)
  rw [hget]
  simp only [discretizeValue]
  rw [hval]
  exact ⟨rfl, hbnd.1, hbnd.2⟩

/-- C7 at the scenario `D = 3`, `nbins = 4`, `minval = 0`, `binsize = 1`: the pixel
`(0.4, 1.6, 3.9)` yields the key `(0, 2, 3)`. -/
theorem C7_discretize_key_witness :
    discretize 0 1 4 [2/5, 8/5, 39/10] = [0, 2, 3] ∧
    (discretize 0 1 4 [2/5, 8/5, 39/10]).length = 3 ∧
    (((discretize 0 1 4 [2/5, 8/5, 39/10]).getD 2 0).val : Int)
      = clamp (round ((([2/5, 8/5, 39/10] : Pixel).getD 2 0 - 0) / 1)) 0 (4 - 1) := by
  have h := C7_discretize_key 0 1 4 (by norm_num) (by decide) (by decide) [2/5, 8/5, 39/10]
  refine ⟨?_, h.1, (h.2 2 (by simp)).1⟩
  simp only [discretize, discretizeValue, clamp, toByte, List.map, round_eq]
  norm_num
  decide

/-! ## Claims on the range reducer -/

namespace PreprocessBins

theorem joinRanges_comm (a b : List (Int × Int)) : joinRanges a b = joinRanges b a := by
  induction a generalizing b with
  | nil => cases b <;> simp [joinRanges]
  | cons x xs ih =>
    cases b with
    | nil => simp [joinRanges]
    | cons y ys =>
      have := ih ys
      simp only [joinRanges] at this
      simp [joinRanges, this, min_comm, max_comm]

theorem joinRanges_assoc (a b c : List (Int × Int)) :
    joinRanges (joinRanges a b) c = joinRanges a (joinRanges b c) := by
  induction a generalizing b c with
  | nil => simp [joinRanges]
  | cons x xs ih =>
    cases b with
    | nil => simp [joinRanges]
    | cons y ys =>
      cases c with
      | nil => simp [joinRanges]
      | cons z zs =>
        have := ih ys zs
        simp only [joinRanges] at this
        simp [joinRanges, this, min_assoc, max_assoc]

theorem joinRanges_fresh_left (D : Nat) (r : List (Int × Int)) (hlen : r.length = D)
    (hr : intRanges r) :
    joinRanges (List.replicate D (INT_MAX, INT_MIN)) r = r := by
  induction r generalizing D with
  | nil => simp [joinRanges]
  | cons x xs ih =>
    cases D with
    | zero => simp at hlen
    | succ n =>
      have hx := hr x (List.mem_cons_self _ _)
      have hxs : intRanges xs := fun e he => hr e (List.mem_cons_of_mem _ he)
      have := ih n (by simpa using hlen) hxs
      simp only [joinRanges] at this
      simp only [joinRanges, List.replicate_succ, List.zipWith_cons_cons, this]
      rw [min_eq_right hx.1.2, max_eq_right hx.2.1]

theorem joinRanges_length (a b : List (Int × Int)) (h : a.length = b.length) :
    (joinRanges a b).length = a.length := by
  simp [joinRanges, h]

theorem visit_eq_join (r : List (Int × Int)) (key : HashKey) :
    List.zipWith takeIn r key
      = joinRanges r (key.map (fun c => ((c.val : Int), (c.val : Int)))) := by
  induction r generalizing key with
  | nil => simp [joinRanges]
  | cons x xs ih =>
    cases key with
    | nil => simp [joinRanges]
    | cons c cs =>
      have := ih cs
      simp only [joinRanges] at this
      simp [joinRanges, this, takeIn]

theorem intRanges_point (key : HashKey) :
    intRanges (key.map (fun c => ((c.val : Int), (c.val : Int)))) := by
  intro e he
  simp only [List.mem_map] at he
  obtain ⟨c, _, rfl⟩ := he
  have h1 : (c.val : Int) < 256 := by exact_mod_cast c.isLt
  have h0 : (0 : Int) ≤ (c.val : Int) := by exact_mod_cast Nat.zero_le _
  simp only [INT_MIN, INT_MAX]
  omega

theorem intRanges_join (a b : List (Int × Int)) (ha : intRanges a) (hb : intRanges b) :
    intRanges (joinRanges a b) := by
  induction a generalizing b with
  | nil => intro e he; simp [joinRanges] at he
  | cons x xs ih =>
    cases b with
    | nil => intro e he; simp [joinRanges] at he
    | cons y ys =>
      intro e he
      simp only [joinRanges, List.zipWith_cons_cons, List.mem_cons] at he
      have hx := ha x (List.mem_cons_self _ _)
      have hy := hb y (List.mem_cons_self _ _)
      rcases he with rfl | he
      · simp only [INT_MIN, INT_MAX] at hx hy ⊢
        simp only [le_min_iff, min_le_iff, le_max_iff, max_le_iff]
        omega
      · exact ih ys (fun e he => ha e (List.mem_cons_of_mem _ he))
          (fun e he => hb e (List.mem_cons_of_mem _ he)) e he

theorem intRanges_fresh (D : Nat) : intRanges (List.replicate D (INT_MAX, INT_MIN)) := by
  intro e he
  rw [List.eq_of_mem_replicate he]
  simp [INT_MIN, INT_MAX]

theorem call_ranges (body : PreprocessBins) (es : HashMap) :
    (body.call es).ranges
      = es.foldl (fun acc e => List.zipWith takeIn acc e.1) body.ranges := by
  unfold call
  induction es generalizing body with
  | nil => rfl
  | cons e es ih =>
    simp only [List.foldl_cons]
    rw [ih (body.visit e.1)]
    rfl

theorem visit_good (D : Nat) (r : List (Int × Int)) (key : HashKey)
    (hlen : r.length = D) (hr : intRanges r) (hk : key.length = D) :
    (List.zipWith takeIn r key).length = D ∧ intRanges (List.zipWith takeIn r key) := by
  constructor
  · simp [hlen, hk]
  · rw [visit_eq_join]
    exact intRanges_join _ _ hr (intRanges_point key)

theorem fold_good (D : Nat) (es : HashMap) (hk : ∀ e ∈ es, e.1.length = D)
    (r : List (Int × Int)) (hlen : r.length = D) (hr : intRanges r) :
    (es.foldl (fun acc e => List.zipWith takeIn acc e.1) r).length = D ∧
      intRanges (es.foldl (fun acc e => List.zipWith takeIn acc e.1) r) := by
  induction es generalizing r with
  | nil => exact ⟨hlen, hr⟩
  | cons e es ih =>
    have hg := visit_good D r e.1 hlen hr (hk e (List.mem_cons_self _ _))
    simp only [List.foldl_cons]
    exact ih (fun e he => hk e (List.mem_cons_of_mem _ he)) _ hg.1 hg.2

/-- Working through entries from ranges `r` gives the join of `r` with the result of
working through the same entries from the fresh ranges. -/
theorem fold_eq_join_fresh (D : Nat) (es : HashMap) (hk : ∀ e ∈ es, e.1.length = D)
    (r : List (Int × Int)) (hlen : r.length = D) (hr : intRanges r) :
    es.foldl (fun acc e => List.zipWith takeIn acc e.1) r
      = joinRanges r (es.foldl (fun acc e => List.zipWith takeIn acc e.1)
          (List.replicate D (INT_MAX, INT_MIN))) := by
  induction es generalizing r with
  | nil =>
    simp only [List.foldl_nil]
    rw [joinRanges_comm, joinRanges_fresh_left D r hlen hr]
  | cons e es ih =>
    have hke : e.1.length = D := hk e (List.mem_cons_self _ _)
    have hkes : ∀ x ∈ es, x.1.length = D := fun x hx => hk x (List.mem_cons_of_mem _ hx)
    have hg := visit_good D r e.1 hlen hr hke
    have hf := visit_good D (List.replicate D (INT_MAX, INT_MIN)) e.1 (by simp)
      (intRanges_fresh D) hke
    simp only [List.foldl_cons]
    rw [ih hkes _ hg.1 hg.2, ih hkes _ hf.1 hf.2, ← joinRanges_assoc]
    congr 1
    rw [visit_eq_join, visit_eq_join,
      joinRanges_fresh_left D _ (by simp [hke]) (intRanges_point e.1)]

theorem fold_append_fresh (D : Nat) (l r : HashMap) (hl : ∀ e ∈ l, e.1.length = D)
    (hr : ∀ e ∈ r, e.1.length = D) :
    (l ++ r).foldl (fun acc e => List.zipWith takeIn acc e.1)
        (List.replicate D (INT_MAX, INT_MIN))
      = joinRanges
          (l.foldl (fun acc e => List.zipWith takeIn acc e.1)
            (List.replicate D (INT_MAX, INT_MIN)))
          (r.foldl (fun acc e => List.zipWith takeIn acc e.1)
            (List.replicate D (INT_MAX, INT_MIN))) := by
  have hg := fold_good D l hl (List.replicate D (INT_MAX, INT_MIN)) (by simp)
    (intRanges_fresh D)
  rw [List.foldl_append, fold_eq_join_fresh D r hr _ hg.1 hg.2]

theorem takeIn_right_comm (r : List (Int × Int)) (k1 k2 : HashKey) :
    List.zipWith takeIn (List.zipWith takeIn r k1) k2
      = List.zipWith takeIn (List.zipWith takeIn r k2) k1 := by
  induction r generalizing k1 k2 with
  | nil => simp
  | cons x xs ih =>
    cases k1 with
    | nil => simp
    | cons c1 cs1 =>
      cases k2 with
      | nil => simp
      | cons c2 cs2 =>
        simp only [List.zipWith_cons_cons, ih cs1 cs2, takeIn]
        congr 2
        · rw [min_assoc, min_comm (c1.val : Int), ← min_assoc]
        · rw [max_assoc, max_comm (c1.val : Int), ← max_assoc]

/-- The reduction over any division of the work gives the ranges that one body
computes over all entries handed out. -/
theorem reduce_ranges (t : WorkSplit) (body : PreprocessBins)
    (hbody : body.ranges = List.replicate body.dimensionality (INT_MAX, INT_MIN))
    (hk : ∀ e ∈ t.entries, e.1.length = body.dimensionality) :
    (WorkSplit.reduce body t).ranges
      = t.entries.foldl (fun acc e => List.zipWith takeIn acc e.1)
          (List.replicate body.dimensionality (INT_MAX, INT_MIN)) := by
  induction t generalizing body with
  | leaf es => simp only [WorkSplit.reduce, WorkSplit.entries, call_ranges, hbody]
  | node l r ihl ihr =>
    simp only [WorkSplit.entries, List.mem_append] at hk
    have hl : ∀ e ∈ l.entries, e.1.length = body.dimensionality :=
      fun e he => hk e (Or.inl he)
    have hr : ∀ e ∈ r.entries, e.1.length = body.dimensionality :=
      fun e he => hk e (Or.inr he)
    have h1 := ihl body hbody hl
    have h2 := ihr body.split rfl hr
    simp only [WorkSplit.reduce, WorkSplit.entries, join]
    rw [h1, h2, fold_append_fresh body.dimensionality _ _ hl hr]
    rfl

end PreprocessBins

/-- C8: the join of two partial occupancy-range vectors is commutative and
associative, the ranges of a freshly constructed or split body, every entry
`(INT_MAX, INT_MIN)`, are its identity on range vectors of length `D` with `int`
entries, and for every division of the bins of a histogram among bodies, in any
order, the reduction gives the ranges that a single body computes over all bins. -/
theorem C8_join_laws_and_partition_invariance (label : Int) (D : Nat) (maxval : Value) :
    (∀ a b, PreprocessBins.joinRanges a b = PreprocessBins.joinRanges b a) ∧
    (∀ a b c, PreprocessBins.joinRanges (PreprocessBins.joinRanges a b) c
        = PreprocessBins.joinRanges a (PreprocessBins.joinRanges b c)) ∧
    (∀ r, r.length = D → PreprocessBins.intRanges r →
      PreprocessBins.joinRanges (PreprocessBins.new label D maxval).ranges r = r ∧
      PreprocessBins.joinRanges r (PreprocessBins.new label D maxval).ranges = r ∧
      PreprocessBins.joinRanges (PreprocessBins.new label D maxval).split.ranges r = r ∧
      PreprocessBins.joinRanges r (PreprocessBins.new label D maxval).split.ranges = r) ∧
    (∀ (t : WorkSplit) (bins : HashMap), (∀ e ∈ bins, e.1.length = D) →
      t.entries.Perm bins →
      (WorkSplit.reduce (PreprocessBins.new label D maxval) t).GetRanges
        = ((PreprocessBins.new label D maxval).call bins).GetRanges) := by
  refine ⟨PreprocessBins.joinRanges_comm, PreprocessBins.joinRanges_assoc, ?_, ?_⟩
  · intro r hlen hr
    have hleft := PreprocessBins.joinRanges_fresh_left D r hlen hr
    have hright : PreprocessBins.joinRanges r (List.replicate D (INT_MAX, INT_MIN)) = r := by
      rw [PreprocessBins.joinRanges_comm]
      exact hleft
    exact ⟨hleft, hright, hleft, hright⟩
  · intro t bins hk hperm
    have hkt : ∀ e ∈ t.entries, e.1.length = D := fun e he => hk e (hperm.mem_iff.mp he)
    simp only [PreprocessBins.GetRanges]
    rw [PreprocessBins.reduce_ranges t (PreprocessBins.new label D maxval) rfl hkt,
      PreprocessBins.call_ranges]
    exact List.Perm.foldl_eq' hperm
      (fun x _ y _ z => PreprocessBins.takeIn_right_comm z x.1 y.1) _

/-- C8 at a histogram of three bins with `D = 2`: one body takes the first bin, a
second body that splits once more takes the other two, and the ranges are those one
body computes over the bins in another order, `(1, 5)` and `(2, 7)`. -/
theorem C8_join_laws_and_partition_invariance_witness :
    (WorkSplit.reduce (PreprocessBins.new 0 2 1)
        (WorkSplit.node (WorkSplit.leaf [([1, 7], Bin.new)])
          (WorkSplit.node (WorkSplit.leaf [([5, 2], Bin.new)])
            (WorkSplit.leaf [([3, 4], Bin.new)])))).GetRanges
      = ((PreprocessBins.new 0 2 1).call
          [([5, 2], Bin.new), ([3, 4], Bin.new), ([1, 7], Bin.new)]).GetRanges ∧
    ((PreprocessBins.new 0 2 1).call
          [([5, 2], Bin.new), ([3, 4], Bin.new), ([1, 7], Bin.new)]).GetRanges
      = [(1, 5), (2, 7)] := by
  constructor
  · refine (C8_join_laws_and_partition_invariance 0 2 1).2.2.2 _ _ ?_ ?_
    · intro e he
      simp only [List.mem_cons, List.mem_singleton, List.not_mem_nil, or_false] at he
      rcases he with rfl | rfl | rfl <;> rfl
    · simp only [WorkSplit.entries]
      exact List.perm_append_comm
  · decide

/-! ## Claims on the vertex generator -/

theorem tbb_hasher_loop_eq_foldl (w : Nat) (a : HashKey) (fuel i h : Nat)
    (hfuel : a.length ≤ i + fuel) :
    tbb_hasher_loop w a fuel i h
      = (a.drop i).foldl
          (fun h x => (x.val % 2 ^ w) ^^^ (h * tbb_hash_multiplier w % 2 ^ w)) h := by
  induction fuel generalizing i h with
  | zero =>
    have : a.drop i = [] := List.drop_eq_nil_of_le (by omega)
    simp [tbb_hasher_loop, this]
  | succ fuel ih =>
    by_cases hi : i < a.length
    · simp only [tbb_hasher_loop, hi, if_true]
      rw [ih (i + 1) _ (by omega), List.drop_eq_getElem_cons hi, List.foldl_cons]
      simp [List.getD_eq_getElem?_getD, List.getElem?_eq_getElem hi]
    · have : a.drop i = [] := List.drop_eq_nil_of_le (by omega)
      simp [tbb_hasher_loop, hi, this]

theorem byte_mod_two_pow (w : Nat) (hw : 8 ≤ w) (x : Fin 256) : x.val % 2 ^ w = x.val := by
  apply Nat.mod_eq_of_lt
  have h1 : (2 : Nat) ^ 8 ≤ 2 ^ w := Nat.pow_le_pow_right (by decide) hw
  have h2 : x.val < 256 := x.isLt
  omega

theorem hashFold_lt (w : Nat) (hw : 8 ≤ w) (a : HashKey) (h0 : Nat) (hh : h0 < 2 ^ w) :
    a.foldl (fun h x => x.val ^^^ (h * tbb_hash_multiplier w % 2 ^ w)) h0 < 2 ^ w := by
  induction a generalizing h0 with
  | nil => exact hh
  | cons x xs ih =>
    simp only [List.foldl_cons]
    apply ih
    apply Nat.xor_lt_two_pow
    · rw [← byte_mod_two_pow w hw x]
      exact Nat.mod_lt _ (Nat.pos_pow_of_pos w (by decide))
    · exact Nat.mod_lt _ (Nat.pos_pow_of_pos w (by decide))

/-- C10: for a `size_t` of `w ≥ 8` bits and every key `a`, `tbb_hasher(a)` is the left
fold over the bytes of `a`, in index order and from 0, of
`h ↦ a[i] XOR (h * tbb_hash_multiplier)` with the product taken modulo `2^w`; the
multiplier is 2654435769 for `w = 32` and 11400714819323198485 for `w = 64`; the empty
key hashes to 0, a one-byte key to its byte, equal keys have equal hashes, and the
hash is a value of `size_t`. -/
theorem C10_tbb_hasher_is_left_fold (w : Nat) (hw : 8 ≤ w) (a : HashKey) :
    tbb_hasher w a = hashFold w a ∧
    tbb_hash_multiplier 32 = 2654435769 ∧
    tbb_hash_multiplier 64 = 11400714819323198485 ∧
    tbb_hasher w [] = 0 ∧
    (∀ x : Fin 256, tbb_hasher w [x] = x.val) ∧
    (∀ b : HashKey, a = b → tbb_hasher w a = tbb_hasher w b) ∧
    tbb_hasher w a < 2 ^ w := by
  have hfold : ∀ k : HashKey, tbb_hasher w k = hashFold w k := by
    intro k
    unfold tbb_hasher hashFold
    rw [tbb_hasher_loop_eq_foldl w k k.length 0 0 (by omega), List.drop_zero]
    congr 1
    funext h x
    rw [byte_mod_two_pow w hw x]
  refine ⟨hfold a, by decide, by decide, ?_, ?_, ?_, ?_⟩
  · rw [hfold]
    rfl
  · intro x
    rw [hfold]
    simp [hashFold]
  · intro b hab
    rw [hab]
  · rw [hfold]
    exact hashFold_lt w hw a 0 (Nat.pos_pow_of_pos w (by decide))

/-- C10 at `w = 64` and the key `(1, 2)`: the hash is `2 XOR 11400714819323198485`. -/
theorem C10_tbb_hasher_is_left_fold_witness :
    tbb_hasher 64 [1, 2] = hashFold 64 [1, 2] ∧
    tbb_hasher 64 [1, 2] = 11400714819323198487 := by
  refine ⟨(C10_tbb_hasher_is_left_fold 64 (by decide) [1, 2]).1, ?_⟩
  decide

/-! ## Claims on the constructor from a pixel and on `ViewportCtx` -/

/-- C11: for every pixel vector `p`, `Bin(p)` is the bin that `Bin()` followed by one
`add(p)` gives: the weight is 1 and `means` equals `p`. -/
theorem C11_Bin_from_pixel_eq_new_then_add (p : Pixel) :
    Bin.add Bin.new p = .ok (Bin.newFrom p) ∧
    (Bin.newFrom p).weight = 1 ∧ (Bin.newFrom p).means = p := by
  refine ⟨?_, rfl, rfl⟩
  rw [Bin.add_empty Bin.new p rfl]
  simp [Bin.new, Bin.newFrom]

/-- C12: after `a = b` every member of `a` equals the member of `b`, so `a` is `b`;
assigning `b` a second time changes nothing; and `b`, which the operator only reads,
is the same after the assignment even when `a` and `b` are one object. -/
theorem C12_ViewportCtx_assign_copies_every_member {BandDesc : Type}
    (a b : ViewportCtx BandDesc) :
    ((a.assign b).wait = b.wait ∧
     (a.assign b).reset = b.reset ∧
     (a.assign b).dimensionality = b.dimensionality ∧
     (a.assign b).dimensionalityValid = b.dimensionalityValid ∧
     (a.assign b).type = b.type ∧
     (a.assign b).meta = b.meta ∧
     (a.assign b).metaValid = b.metaValid ∧
     (a.assign b).labels = b.labels ∧
     (a.assign b).labelsValid = b.labelsValid ∧
     (a.assign b).ignoreLabels = b.ignoreLabels ∧
     (a.assign b).nbins = b.nbins ∧
     (a.assign b).binsize = b.binsize ∧
     (a.assign b).binsizeValid = b.binsizeValid ∧
     (a.assign b).minval = b.minval ∧
     (a.assign b).minvalValid = b.minvalValid ∧
     (a.assign b).maxval = b.maxval ∧
     (a.assign b).maxvalValid = b.maxvalValid) ∧
    a.assign b = b ∧
    (a.assign b).assign b = a.assign b ∧
    b.assign b = b := by
  cases a
  cases b
  simp [ViewportCtx.assign]

/-- C12 at two contexts that differ in every member. -/
theorem C12_ViewportCtx_assign_copies_every_member_witness :
    ViewportCtx.assign
      ({ wait := 0, reset := 0, dimensionality := 0, dimensionalityValid := false,
         type := representation.IMG, meta := [], metaValid := false, labels := [],
         labelsValid := false, ignoreLabels := false, nbins := 0, binsize := 0,
         binsizeValid := false, minval := 0, minvalValid := false, maxval := 0,
         maxvalValid := false } : ViewportCtx String)
      { wait := 1, reset := 2, dimensionality := 31, dimensionalityValid := true,
        type := representation.GRAD, meta := ["band"], metaValid := true,
        labels := ["sky"], labelsValid := true, ignoreLabels := true, nbins := 30,
        binsize := 2, binsizeValid := true, minval := 1, minvalValid := true,
        maxval := 61, maxvalValid := true }
      = { wait := 1, reset := 2, dimensionality := 31, dimensionalityValid := true,
          type := representation.GRAD, meta := ["band"], metaValid := true,
          labels := ["sky"], labelsValid := true, ignoreLabels := true, nbins := 30,
          binsize := 2, binsizeValid := true, minval := 1, minvalValid := true,
          maxval := 61, maxvalValid := true } :=
  (C12_ViewportCtx_assign_copies_every_member _ _).2.1

/-! ## Claims on `estimate_startup_memory` -/

end Gerbil
